import Mathlib

/-!
Verification of the Hopenhayn (1992) stationary-equilibrium solver
(`Hopenhayn/hopenhayn.py`).

The class `Hopenhayn` stores, after `__init__`/`setup_grid`, the scalar
parameters together with the productivity grid `grid_z`, the transition
matrix `pi` and the entrant distribution `nu` produced by the external
Rouwenhorst discretization (`quantecon`), which the specification treats
as an external numerical utility.  We embed that post-setup state as a
structure over `ℝ`, and each solver method as a Lean function translated
from the Python source:

* `incumbent_firm`   — static profit maximization (closed forms with `rpow`);
* `solve_vf`         — value-function iteration (`vfLoop`, fuel = `maxit`);
* `entry_condition`  — discounted expected entrant value `beta * (VF ⬝ nu)`;
* `exit_decision`    — exit cutoff via `np.searchsorted`; the numpy scalar
  indexing `grid_z[idx]` raises `IndexError` when `idx` is out of bounds,
  so the embedding returns an `Option` (`none` = the lookup fails);
* `solve_firm`       — bisection on the price over `[0.01, 100]`
  (`firmLoop`, fuel = `maxit - 1` so that exactly `maxit` iterations run);
* `solve_invariant_distribution`, `solve_m_star` — closed-form stationary
  distribution and entrant mass.

`setup_parameters` fixes `tol = 1e-8` and `maxit = 2000`; these are the
constants `Hopenhayn.tol` and `Hopenhayn.maxit` below.

Numerics are modelled over `ℝ` (the Python code computes with float64);
`np.searchsorted` is embedded as the binary search numpy performs.
-/

noncomputable section

namespace HopenhaynModel

/-- Post-setup state of the Python `Hopenhayn` object: the scalar
parameters set in `__init__`, plus the grid `grid_z`, the transition
matrix `pi` and the entrant distribution `nu` that `setup_grid` obtains
from the external Rouwenhorst discretization. -/
structure Hopenhayn (Nz : ℕ) where
  beta : ℝ
  theta : ℝ
  cf : ℝ
  ce : ℝ
  D : ℝ
  wage : ℝ
  pi : Fin Nz → Fin Nz → ℝ
  grid_z : Fin Nz → ℝ
  nu : Fin Nz → ℝ

namespace Hopenhayn

variable {Nz : ℕ}

/-- `setup_parameters`: `self.tol = 1e-8`. -/
def tol : ℝ := 1e-8

/-- `setup_parameters`: `self.maxit = 2000`. -/
def maxit : ℕ := 2000

/-- `incumbent_firm`: static profit maximization given a price.  Returns
`(firm_profit, firm_output, pol_n)`, each an `Nz`-vector:
`pol_n z = ((theta * price * grid_z z) / wage) ^ (1 / (1 - theta))`,
`firm_output z = grid_z z * pol_n z ^ theta`,
`firm_profit z = price * firm_output z - wage * pol_n z - cf`. -/
def incumbent_firm (H : Hopenhayn Nz) (price : ℝ) :
    (Fin Nz → ℝ) × (Fin Nz → ℝ) × (Fin Nz → ℝ) :=
  let pol_n : Fin Nz → ℝ :=
    fun z => ((H.theta * price * H.grid_z z) / H.wage) ^ ((1 : ℝ) / (1 - H.theta))
  let firm_output : Fin Nz → ℝ := fun z => H.grid_z z * pol_n z ^ H.theta
  let firm_profit : Fin Nz → ℝ :=
    fun z => price * firm_output z - H.wage * pol_n z - H.cf
  (firm_profit, firm_output, pol_n)

/-- `entry_condition`: `beta * np.dot(VF, nu)`. -/
def entry_condition (H : Hopenhayn Nz) (VF : Fin Nz → ℝ) : ℝ :=
  H.beta * Matrix.dotProduct VF H.nu

/-- One iteration of the value-function loop in `solve_vf`:
`VF = firm_profit + beta * np.dot(pi, VF_old).clip(min=0)`. -/
def bellman (H : Hopenhayn Nz) (profit : Fin Nz → ℝ) (VF_old : Fin Nz → ℝ) :
    Fin Nz → ℝ :=
  fun z => profit z + H.beta * max 0 (∑ j, H.pi z j * VF_old j)

/-- `np.abs(VF_old - VF).max()`.  (On an empty array numpy raises; the
grids used always have `Nz ≥ 1`, where this is the max-norm distance.) -/
def supDist (f g : Fin Nz → ℝ) : ℝ :=
  if h : (Finset.univ : Finset (Fin Nz)).Nonempty then
    Finset.univ.sup' h fun z => |f z - g z|
  else 0

/-- The `for it in range(maxit)` loop of `solve_vf`, with `fuel` many
iterations remaining.  Each iteration computes `VF = bellman VF_old`,
breaks (returning the freshly computed `VF`) as soon as
`np.abs(VF_old - VF).max() < tol`, and otherwise continues with
`VF_old := VF`; when the iterations are exhausted the last computed
iterate is returned. -/
def vfLoop (H : Hopenhayn Nz) (profit : Fin Nz → ℝ) :
    ℕ → (Fin Nz → ℝ) → (Fin Nz → ℝ)
  | 0, VF_old => VF_old
  | fuel + 1, VF_old =>
    let VF := bellman H profit VF_old
    if supDist VF_old VF < tol then VF else vfLoop H profit fuel VF

/-- `solve_vf`: value-function iteration for the incumbent firm, starting
from `VF = 0` and running at most `maxit` iterations.  The Python method
returns `VF, firm_profit, firm_output, pol_n`; the trailing three
components are exactly `incumbent_firm price`. -/
def solve_vf (H : Hopenhayn Nz) (price : ℝ) :
    (Fin Nz → ℝ) × ((Fin Nz → ℝ) × (Fin Nz → ℝ) × (Fin Nz → ℝ)) :=
  (vfLoop H (H.incumbent_firm price).1 maxit fun _ => 0, H.incumbent_firm price)

/-- The `k`-th Bellman iterate of `solve_vf` starting from `VF = 0`. -/
def vfIter (H : Hopenhayn Nz) (price : ℝ) (k : ℕ) : Fin Nz → ℝ :=
  (H.bellman (H.incumbent_firm price).1)^[k] fun _ => 0

/-- `avg_VF = np.dot(pi, VF)` in `exit_decision`. -/
def avgVF (H : Hopenhayn Nz) (VF : Fin Nz → ℝ) : Fin Nz → ℝ :=
  fun z => ∑ j, H.pi z j * VF j

/-- The binary search performed by `np.searchsorted(a, v)` (default
`side='left'`): maintain `lo < hi`, probe `mid = (lo + hi) / 2`, move
`lo` past `mid` when `a[mid] < v` and lower `hi` to `mid` otherwise.
`fuel` bounds the number of iterations; numpy's loop needs at most
`hi - lo` of them. -/
def ssGo (a : Fin Nz → ℝ) (v : ℝ) : ℕ → ℕ → ℕ → ℕ
  | 0, lo, _ => lo
  | fuel + 1, lo, hi =>
    if lo < hi then
      let mid := (lo + hi) / 2
      if hm : mid < Nz then
        if a ⟨mid, hm⟩ < v then ssGo a v fuel (mid + 1) hi
        else ssGo a v fuel lo mid
      else lo
    else lo

/-- `np.searchsorted(a, v)`: binary search over the whole array. -/
def searchsorted (a : Fin Nz → ℝ) (v : ℝ) : ℕ :=
  ssGo a v Nz 0 Nz

/-- `exit_decision`: `idx = np.searchsorted(avg_VF, 0)`;
`exit_cutoff = grid_z[idx]` — a fallible numpy scalar lookup, which
raises `IndexError` when `idx = Nz` (modelled by `none`) — and
`pol_exit = np.where(grid_z < exit_cutoff, 1, 0)`. -/
def exit_decision (H : Hopenhayn Nz) (VF : Fin Nz → ℝ) :
    Option (ℝ × (Fin Nz → ℕ)) :=
  let idx := searchsorted (H.avgVF VF) 0
  if h : idx < Nz then
    let exit_cutoff := H.grid_z ⟨idx, h⟩
    some (exit_cutoff, fun z => if H.grid_z z < exit_cutoff then 1 else 0)
  else none

/-- The expected entrant value obtained at a trial price inside
`solve_firm`: `entry_condition` applied to the `VF` returned by
`solve_vf` at that price. -/
def entryValueAt (H : Hopenhayn Nz) (price : ℝ) : ℝ :=
  H.entry_condition (H.solve_vf price).1

/-- The `for it_p in range(maxit)` loop of `solve_firm` with `fuel + 1`
iterations remaining.  Each iteration guesses the midpoint price, breaks
returning it when `|VF_entrant - ce| < tol`, and otherwise bisects:
`pmin = price` when `VF_entrant < ce`, else `pmax = price`.  After the
final iteration the last guessed price is returned. -/
def firmLoop (H : Hopenhayn Nz) : ℕ → ℝ → ℝ → ℝ
  | 0, pmin, pmax => (pmin + pmax) / 2
  | fuel + 1, pmin, pmax =>
    let price := (pmin + pmax) / 2
    if |H.entryValueAt price - H.ce| < tol then price
    else if H.entryValueAt price < H.ce then H.firmLoop fuel price pmax
    else H.firmLoop fuel pmin price

/-- `solve_firm`: bisection on the price starting from
`pmin, pmax = 0.01, 100`, running at most `maxit` iterations
(`fuel = maxit - 1` because the fuel counts the remaining iterations
after the current one). -/
def solve_firm (H : Hopenhayn Nz) : ℝ :=
  H.firmLoop (maxit - 1) 0.01 100

/-- One interval-update step of the bisection described by the
specification: guess the midpoint; if the expected entrant value at it
is below `ce` raise the lower endpoint to the midpoint, otherwise lower
the upper endpoint to it. -/
def entryStep (H : Hopenhayn Nz) (ab : ℝ × ℝ) : ℝ × ℝ :=
  let price := (ab.1 + ab.2) / 2
  if H.entryValueAt price < H.ce then (price, ab.2) else (ab.1, price)

/-- The midpoint guessed at the `m`-th bisection iteration (0-based)
when starting from the interval `ab`. -/
def specMid (H : Hopenhayn Nz) (ab : ℝ × ℝ) (m : ℕ) : ℝ :=
  (((H.entryStep)^[m] ab).1 + ((H.entryStep)^[m] ab).2) / 2

/-- `pi_tilde = (pi * (1 - pol_exit).reshape(Nz, 1)).T` in
`solve_invariant_distribution`: row `i` of `pi` is scaled by
`1 - pol_exit i` (exiting states carry no mass forward), then the result
is transposed. -/
def pi_tilde (H : Hopenhayn Nz) (pol_exit : Fin Nz → ℕ) :
    Matrix (Fin Nz) (Fin Nz) ℝ :=
  Matrix.of fun j i => H.pi i j * (1 - (pol_exit i : ℝ))

/-- `solve_invariant_distribution`:
`m * np.dot(la.inv(I - pi_tilde), nu)`. -/
def solve_invariant_distribution (H : Hopenhayn Nz) (m : ℝ)
    (pol_exit : Fin Nz → ℕ) : Fin Nz → ℝ :=
  m • ((1 - H.pi_tilde pol_exit)⁻¹).mulVec H.nu

/-- `solve_m_star`: `D / np.dot(distrib_stationary_0, firm_output)`. -/
def solve_m_star (H : Hopenhayn Nz) (distrib_stationary_0 : Fin Nz → ℝ)
    (firm_output : Fin Nz → ℝ) : ℝ :=
  H.D / Matrix.dotProduct distrib_stationary_0 firm_output

/-- Row-stochasticity of a transition matrix: nonnegative entries and
rows summing to one. -/
def RowStochastic (pi : Fin Nz → Fin Nz → ℝ) : Prop :=
  (∀ i j, 0 ≤ pi i j) ∧ ∀ i, ∑ j, pi i j = 1

/-- Stochastic monotonicity of a transition matrix: the induced
expectation operator maps monotone vectors to monotone vectors. -/
def StochMonotone (pi : Fin Nz → Fin Nz → ℝ) : Prop :=
  ∀ f : Fin Nz → ℝ, Monotone f → Monotone fun i => ∑ j, pi i j * f j

end Hopenhayn

open Hopenhayn

/-- A one-state model with the default calibration's scalar parameters
(`beta = 0.8`, `theta = 2/3`, `cf = 20`, `ce = 40`, `D = 100`,
`wage = 1`) and the trivial one-point chain. -/
def unitModel : Hopenhayn 1 :=
  { beta := 0.8, theta := 2/3, cf := 20, ce := 40, D := 100, wage := 1
    pi := fun _ _ => 1, grid_z := fun _ => 1, nu := fun _ => 1 }

/-- A one-state model whose free-entry condition has no root in the
search interval: `theta = 0` makes the profit at price `p` equal to `p`,
and `ce = -1` lies strictly below the (nonnegative) expected entrant
value at every positive price, so the bisection tolerance is never met. -/
def noRootModel : Hopenhayn 1 :=
  { beta := 1/2, theta := 0, cf := 0, ce := -1, D := 100, wage := 1
    pi := fun _ _ => 1, grid_z := fun _ => 1, nu := fun _ => 1 }

/-- A one-state model with `beta = 2`: the Bellman iteration diverges
(successive iterates always differ by at least `1`), so value-function
iteration hits `maxit` without meeting the tolerance. -/
def divergeModel : Hopenhayn 1 :=
  { beta := 2, theta := 0, cf := 0, ce := 40, D := 100, wage := 1
    pi := fun _ _ => 1, grid_z := fun _ => 1, nu := fun _ => 1 }

/-- A two-state model with the identity transition matrix and the
strictly increasing positive grid `(1, 2)`. -/
def twoStateModel : Hopenhayn 2 :=
  { beta := 1/2, theta := 1/2, cf := 0, ce := 40, D := 100, wage := 1
    pi := fun i j => if i = j then 1 else 0
    grid_z := fun z => (z.val : ℝ) + 1, nu := fun _ => 1/2 }

/-- A monotone two-state value function with a sign change:
`-1` at the low state, `1` at the high state. -/
def twoStateVF : Fin 2 → ℝ := fun z => 2 * (z.val : ℝ) - 1

/-! ### Helper lemmas: the price-bisection loop -/

/-- Every value returned by the bisection loop lies strictly inside the
current search interval. -/
theorem firmLoop_mem {Nz : ℕ} (H : Hopenhayn Nz) :
    ∀ (fuel : ℕ) (a b : ℝ), a < b →
      a < H.firmLoop fuel a b ∧ H.firmLoop fuel a b < b := by
  intro fuel
  induction fuel with
  | zero =>
    intro a b hab
    constructor <;> simp only [firmLoop] <;> linarith
  | succ n ih =>
    intro a b hab
    have hmid1 : a < (a + b) / 2 := by linarith
    have hmid2 : (a + b) / 2 < b := by linarith
    by_cases h1 : |H.entryValueAt ((a + b) / 2) - H.ce| < tol
    · simp only [firmLoop, if_pos h1]
      exact ⟨hmid1, hmid2⟩
    · by_cases h2 : H.entryValueAt ((a + b) / 2) < H.ce
      · have hrec := ih ((a + b) / 2) b hmid2
        simp only [firmLoop, if_neg h1, if_pos h2]
        exact ⟨lt_trans hmid1 hrec.1, hrec.2⟩
      · have hrec := ih a ((a + b) / 2) hmid1
        simp only [firmLoop, if_neg h1, if_neg h2]
        exact ⟨hrec.1, lt_trans hrec.2 hmid2⟩

/-- The bisection loop is the iteration of `entryStep`: the returned
price is the midpoint guessed at some iteration `m`, no earlier midpoint
met the tolerance, and either the returned midpoint meets the tolerance
or all the iterations were used. -/
theorem firmLoop_eq_specMid {Nz : ℕ} (H : Hopenhayn Nz) :
    ∀ (fuel : ℕ) (ab : ℝ × ℝ), ∃ m, m ≤ fuel ∧
      H.firmLoop fuel ab.1 ab.2 = H.specMid ab m ∧
      (∀ j < m, ¬ |H.entryValueAt (H.specMid ab j) - H.ce| < tol) ∧
      (|H.entryValueAt (H.specMid ab m) - H.ce| < tol ∨ m = fuel) := by
  intro fuel
  induction fuel with
  | zero =>
    intro ab
    refine ⟨0, le_refl 0, ?_, by omega, Or.inr rfl⟩
    simp [firmLoop, specMid]
  | succ n ih =>
    intro ab
    by_cases h1 : |H.entryValueAt ((ab.1 + ab.2) / 2) - H.ce| < tol
    · refine ⟨0, Nat.zero_le _, ?_, by omega, Or.inl ?_⟩
      · simp only [firmLoop, if_pos h1]
        simp [specMid]
      · simpa [specMid] using h1
    · obtain ⟨m, hm, heq, hbefore, hlast⟩ := ih (H.entryStep ab)
      have hshift : ∀ j, H.specMid (H.entryStep ab) j = H.specMid ab (j + 1) := by
        intro j
        simp [specMid, Function.iterate_succ_apply]
      have hstep : H.firmLoop (n + 1) ab.1 ab.2 =
          H.firmLoop n (H.entryStep ab).1 (H.entryStep ab).2 := by
        by_cases h2 : H.entryValueAt ((ab.1 + ab.2) / 2) < H.ce
        · simp only [firmLoop, if_neg h1, if_pos h2, entryStep]
        · simp only [firmLoop, if_neg h1, if_neg h2, entryStep]
      refine ⟨m + 1, by omega, ?_, ?_, ?_⟩
      · rw [hstep, heq, hshift]
      · intro j hj
        rcases Nat.eq_zero_or_pos j with hj0 | hj0
        · subst hj0
          simpa [specMid] using h1
        · obtain ⟨j', rfl⟩ := Nat.exists_eq_succ_of_ne_zero (Nat.pos_iff_ne_zero.mp hj0)
          rw [← hshift]
          exact hbefore j' (by omega)
      · rcases hlast with h | h
        · exact Or.inl (by rwa [hshift] at h)
        · exact Or.inr (by omega)

/-- If the expected entrant value exceeds `ce` by at least `tol` at
every price in `[0.01, 100]`, the bisection never meets its tolerance:
the free-entry condition fails at the returned price. -/
theorem firmLoop_no_root {Nz : ℕ} (H : Hopenhayn Nz)
    (hyp : ∀ p, 0.01 ≤ p → p ≤ 100 → H.ce + tol ≤ H.entryValueAt p) :
    ∀ (fuel : ℕ) (a b : ℝ), 0.01 ≤ a → a < b → b ≤ 100 →
      ¬ |H.entryValueAt (H.firmLoop fuel a b) - H.ce| < tol := by
  have htolpos : (0 : ℝ) < tol := by norm_num [tol]
  have hnotol : ∀ p, 0.01 ≤ p → p ≤ 100 →
      ¬ |H.entryValueAt p - H.ce| < tol := by
    intro p hp1 hp2
    have h := hyp p hp1 hp2
    rw [abs_of_nonneg (by linarith)]
    linarith
  intro fuel
  induction fuel with
  | zero =>
    intro a b ha hab hb
    simp only [firmLoop]
    exact hnotol _ (by linarith) (by linarith)
  | succ n ih =>
    intro a b ha hab hb
    have hp1 : 0.01 ≤ (a + b) / 2 := by linarith
    have hp2 : (a + b) / 2 ≤ 100 := by linarith
    have h1 : ¬ |H.entryValueAt ((a + b) / 2) - H.ce| < tol := hnotol _ hp1 hp2
    have h2 : ¬ H.entryValueAt ((a + b) / 2) < H.ce := by
      have := hyp _ hp1 hp2
      linarith
    simp only [firmLoop, if_neg h1, if_neg h2]
    exact ih a ((a + b) / 2) ha (by linarith) hp2

/-! ### Helper lemmas: the value-function iteration loop -/

/-- The value-function loop is the Bellman iteration with a stopping
time: it returns the `(m+1)`-st iterate for the first `m` at which
successive iterates come within `tol` of each other, or the `fuel`-th
iterate when that never happens. -/
theorem vfLoop_spec {Nz : ℕ} (H : Hopenhayn Nz) (profit : Fin Nz → ℝ) :
    ∀ (fuel : ℕ) (v : Fin Nz → ℝ), 0 < fuel → ∃ m, m < fuel ∧
      H.vfLoop profit fuel v = (H.bellman profit)^[m + 1] v ∧
      (∀ j < m, ¬ supDist ((H.bellman profit)^[j] v)
        ((H.bellman profit)^[j + 1] v) < tol) ∧
      (supDist ((H.bellman profit)^[m] v)
        ((H.bellman profit)^[m + 1] v) < tol ∨ m + 1 = fuel) := by
  intro fuel
  induction fuel with
  | zero => intro v h; omega
  | succ n ih =>
    intro v _
    by_cases h1 : supDist v (H.bellman profit v) < tol
    · refine ⟨0, Nat.succ_pos n, ?_, by omega, Or.inl (by simpa using h1)⟩
      simp [vfLoop, if_pos h1]
    · rcases Nat.eq_zero_or_pos n with hn | hn
      · subst hn
        refine ⟨0, Nat.lt_succ_self 0, ?_, by omega, Or.inr rfl⟩
        simp [vfLoop, if_neg h1]
      · obtain ⟨m, hm, heq, hbefore, hlast⟩ := ih (H.bellman profit v) hn
        have hshift : ∀ j, (H.bellman profit)^[j] (H.bellman profit v) =
            (H.bellman profit)^[j + 1] v := by
          intro j
          rw [← Function.iterate_succ_apply]
        refine ⟨m + 1, by omega, ?_, ?_, ?_⟩
        · have : H.vfLoop profit (n + 1) v = H.vfLoop profit n (H.bellman profit v) := by
            simp [vfLoop, if_neg h1]
          rw [this, heq, hshift]
        · intro j hj
          rcases Nat.eq_zero_or_pos j with hj0 | hj0
          · subst hj0
            simpa using h1
          · obtain ⟨j', rfl⟩ := Nat.exists_eq_succ_of_ne_zero (Nat.pos_iff_ne_zero.mp hj0)
            rw [← hshift, ← hshift]
            exact hbefore j' (by omega)
        · rcases hlast with h | h
          · exact Or.inl (by rwa [hshift, hshift] at h)
          · exact Or.inr (by omega)

/-- When no pair of successive Bellman iterates ever comes within `tol`,
the loop runs to exhaustion and returns the `fuel`-th iterate. -/
theorem vfLoop_no_stop {Nz : ℕ} (H : Hopenhayn Nz) (profit : Fin Nz → ℝ) :
    ∀ (fuel : ℕ) (v : Fin Nz → ℝ),
      (∀ j < fuel, ¬ supDist ((H.bellman profit)^[j] v)
        ((H.bellman profit)^[j + 1] v) < tol) →
      H.vfLoop profit fuel v = (H.bellman profit)^[fuel] v := by
  intro fuel
  induction fuel with
  | zero => intro v _; rfl
  | succ n ih =>
    intro v hv
    have h1 : ¬ supDist v (H.bellman profit v) < tol := by
      simpa using hv 0 (Nat.succ_pos n)
    have hrec := ih (H.bellman profit v) (by
      intro j hj
      rw [← Function.iterate_succ_apply, ← Function.iterate_succ_apply]
      exact hv (j + 1) (by omega))
    calc H.vfLoop profit (n + 1) v
        = H.vfLoop profit n (H.bellman profit v) := by simp [vfLoop, if_neg h1]
      _ = (H.bellman profit)^[n] (H.bellman profit v) := hrec
      _ = (H.bellman profit)^[n + 1] v := by rw [← Function.iterate_succ_apply]

/-- With a nonnegative discount factor and nonnegative profits, every
vector produced by the value-function loop from a nonnegative start is
nonnegative. -/
theorem vfLoop_nonneg {Nz : ℕ} (H : Hopenhayn Nz) (profit : Fin Nz → ℝ)
    (hbeta : 0 ≤ H.beta) (hprofit : ∀ z, 0 ≤ profit z) :
    ∀ (fuel : ℕ) (v : Fin Nz → ℝ), (∀ z, 0 ≤ v z) →
      ∀ z, 0 ≤ H.vfLoop profit fuel v z := by
  have hbell : ∀ v : Fin Nz → ℝ, ∀ z, 0 ≤ H.bellman profit v z := by
    intro v z
    exact add_nonneg (hprofit z) (mul_nonneg hbeta (le_max_left 0 _))
  intro fuel
  induction fuel with
  | zero => intro v hv; exact hv
  | succ n ih =>
    intro v hv z
    by_cases h1 : supDist v (H.bellman profit v) < tol
    · simpa [vfLoop, if_pos h1] using hbell v z
    · simpa [vfLoop, if_neg h1] using ih (H.bellman profit v) (hbell v) z

/-- On a one-point state space the max-norm distance is the absolute
difference at the unique state. -/
theorem supDist_fin_one (f g : Fin 1 → ℝ) : supDist f g = |f 0 - g 0| := by
  rw [supDist, dif_pos Finset.univ_nonempty]
  refine le_antisymm (Finset.sup'_le _ _ fun z _ => ?_)
    (Finset.le_sup' (fun z => |f z - g z|) (Finset.mem_univ (0 : Fin 1)))
  fin_cases z
  exact le_rfl

/-! ### Helper lemmas: the binary search of `np.searchsorted` -/

/-- When every array entry is below the probe value, the binary search
drives `lo` all the way up to `hi`. -/
theorem ssGo_all_lt {Nz : ℕ} (a : Fin Nz → ℝ) (v : ℝ)
    (ha : ∀ i, a i < v) :
    ∀ fuel lo hi, lo ≤ hi → hi ≤ Nz → hi - lo ≤ fuel →
      ssGo a v fuel lo hi = hi := by
  intro fuel
  induction fuel with
  | zero =>
    intro lo hi h1 _ h3
    have : lo = hi := by omega
    simp [ssGo, this]
  | succ n ih =>
    intro lo hi h1 h2 h3
    rcases eq_or_lt_of_le h1 with heq | hlt
    · simp [ssGo, heq]
    · have hm : (lo + hi) / 2 < Nz := by omega
      rw [ssGo, if_pos hlt, dif_pos hm, if_pos (ha _)]
      exact ih _ _ (by omega) h2 (by omega)

/-- Invariant of the `searchsorted` binary search on a monotone array:
the returned index separates the entries below `v` from those at least
`v`, and stays between the initial `lo` and `hi`. -/
theorem ssGo_invariant {Nz : ℕ} (a : Fin Nz → ℝ) (v : ℝ) (ha : Monotone a) :
    ∀ fuel lo hi, lo ≤ hi → hi ≤ Nz → hi - lo ≤ fuel →
      (∀ i : Fin Nz, i.val < lo → a i < v) →
      (∀ i : Fin Nz, hi ≤ i.val → v ≤ a i) →
      (∀ i : Fin Nz, i.val < ssGo a v fuel lo hi → a i < v) ∧
      (∀ i : Fin Nz, ssGo a v fuel lo hi ≤ i.val → v ≤ a i) ∧
      lo ≤ ssGo a v fuel lo hi ∧ ssGo a v fuel lo hi ≤ hi := by
  intro fuel
  induction fuel with
  | zero =>
    intro lo hi h1 _ h3 hlow hhigh
    have : lo = hi := by omega
    subst this
    exact ⟨by simpa [ssGo] using hlow, by simpa [ssGo] using hhigh,
      le_of_eq rfl, le_of_eq rfl⟩
  | succ n ih =>
    intro lo hi h1 h2 h3 hlow hhigh
    rcases eq_or_lt_of_le h1 with heq | hlt
    · subst heq
      exact ⟨by simpa [ssGo] using hlow, by simpa [ssGo] using hhigh,
        by simp [ssGo], by simp [ssGo]⟩
    · have hm : (lo + hi) / 2 < Nz := by omega
      by_cases hcmp : a ⟨(lo + hi) / 2, hm⟩ < v
      · rw [ssGo, if_pos hlt, dif_pos hm, if_pos hcmp]
        have hlow' : ∀ i : Fin Nz, i.val < (lo + hi) / 2 + 1 → a i < v := by
          intro i hi'
          exact lt_of_le_of_lt (ha (show i ≤ ⟨(lo + hi) / 2, hm⟩ by
            simpa [Fin.le_def] using by omega)) hcmp
        have := ih ((lo + hi) / 2 + 1) hi (by omega) h2 (by omega) hlow' hhigh
        exact ⟨this.1, this.2.1, le_trans (by omega) this.2.2.1, this.2.2.2⟩
      · rw [ssGo, if_pos hlt, dif_pos hm, if_neg hcmp]
        have hhigh' : ∀ i : Fin Nz, (lo + hi) / 2 ≤ i.val → v ≤ a i := by
          intro i hi'
          exact le_trans (not_lt.mp hcmp)
            (ha (show (⟨(lo + hi) / 2, hm⟩ : Fin Nz) ≤ i by
              simpa [Fin.le_def] using hi'))
        have := ih lo ((lo + hi) / 2) (by omega) (by omega) (by omega) hlow hhigh'
        exact ⟨this.1, this.2.1, this.2.2.1, le_trans this.2.2.2 (by omega)⟩

/-- `np.searchsorted` on a monotone array returns the index of the first
entry that is at least `v`; equivalently it separates the strictly
smaller entries (below the index) from the rest. -/
theorem searchsorted_spec {Nz : ℕ} (a : Fin Nz → ℝ) (v : ℝ) (ha : Monotone a) :
    (∀ i : Fin Nz, i.val < searchsorted a v → a i < v) ∧
    (∀ i : Fin Nz, searchsorted a v ≤ i.val → v ≤ a i) ∧
    searchsorted a v ≤ Nz := by
  have := ssGo_invariant a v ha Nz 0 Nz (Nat.zero_le _) le_rfl (by omega)
    (fun i hi => absurd hi (Nat.not_lt_zero _))
    (fun i hi => absurd i.isLt (not_lt.mpr hi))
  exact ⟨this.1, this.2.1, this.2.2.2⟩

/-! ### Helper lemmas: concrete models -/

/-- With `theta = 0`, `wage = 1`, `cf = 0` and a unit grid, the static
profit at price `p` is `p` in every state (`pol_n = 0`, output `= 1`). -/
theorem noRootModel_profit (p : ℝ) :
    (noRootModel.incumbent_firm p).1 = fun _ => p := by
  funext z
  show p * (noRootModel.grid_z z * _ ^ noRootModel.theta) -
    noRootModel.wage * _ - noRootModel.cf = p
  norm_num [noRootModel, Real.rpow_one, Real.rpow_zero]

/-- In `noRootModel` the expected entrant value is nonnegative at every
positive price. -/
theorem noRootModel_entry_nonneg (p : ℝ) (hp : 0 < p) :
    0 ≤ noRootModel.entryValueAt p := by
  have hVF : ∀ z, 0 ≤ (noRootModel.solve_vf p).1 z := by
    intro z
    rw [solve_vf, noRootModel_profit]
    exact vfLoop_nonneg _ _ (by norm_num [noRootModel]) (fun _ => hp.le)
      _ _ (fun _ => le_rfl) z
  rw [entryValueAt, entry_condition]
  have : Matrix.dotProduct (noRootModel.solve_vf p).1 noRootModel.nu =
      (noRootModel.solve_vf p).1 0 := by
    simp [Matrix.dotProduct, noRootModel, Fin.sum_univ_one]
  rw [this]
  exact mul_nonneg (by norm_num [noRootModel]) (hVF 0)

/-- In `noRootModel` the expected entrant value exceeds `ce = -1` by at
least `tol` at every price in the search interval. -/
theorem noRootModel_no_root :
    ∀ q, 0.01 ≤ q → q ≤ 100 → noRootModel.ce + tol ≤ noRootModel.entryValueAt q := by
  intro q hq _
  have h0 : 0 ≤ noRootModel.entryValueAt q := noRootModel_entry_nonneg q (by linarith)
  have : noRootModel.ce + tol ≤ 0 := by norm_num [noRootModel, tol]
  linarith

/-- With `theta = 0`, `wage = 1`, `cf = 0` and unit grid, the profit of
`divergeModel` at price `1` is `1` in every state. -/
theorem divergeModel_profit :
    (divergeModel.incumbent_firm 1).1 = fun _ => 1 := by
  funext z
  show 1 * (divergeModel.grid_z z * _ ^ divergeModel.theta) -
    divergeModel.wage * _ - divergeModel.cf = 1
  norm_num [divergeModel, Real.rpow_one, Real.rpow_zero]

/-- The Bellman iterates of `divergeModel` at price `1` are nonnegative
and satisfy the explosive recursion `x_(k+1) = 1 + 2 x_k`. -/
theorem divergeModel_iter :
    ∀ k, 0 ≤ divergeModel.vfIter 1 k 0 ∧
      divergeModel.vfIter 1 (k + 1) 0 = 1 + 2 * divergeModel.vfIter 1 k 0 := by
  have hstep : ∀ v : Fin 1 → ℝ, 0 ≤ v 0 →
      divergeModel.bellman (divergeModel.incumbent_firm 1).1 v 0 = 1 + 2 * v 0 := by
    intro v hv
    rw [bellman, divergeModel_profit]
    have hsum : (∑ j, divergeModel.pi 0 j * v j) = v 0 := by
      simp [divergeModel, Fin.sum_univ_one]
    rw [hsum, max_eq_right hv]
    norm_num [divergeModel]
  intro k
  induction k with
  | zero =>
    refine ⟨by simp [vfIter], ?_⟩
    have h1 : divergeModel.vfIter 1 (0 + 1) =
        divergeModel.bellman (divergeModel.incumbent_firm 1).1 fun _ => 0 := by
      rw [vfIter]
      simp
    rw [h1, hstep (fun _ => 0) le_rfl]
    simp [vfIter]
  | succ n ih =>
    have hx : divergeModel.vfIter 1 (n + 1) 0 = 1 + 2 * divergeModel.vfIter 1 n 0 :=
      ih.2
    have hpos : 0 ≤ divergeModel.vfIter 1 (n + 1) 0 := by
      rw [hx]; linarith [ih.1]
    refine ⟨hpos, ?_⟩
    rw [vfIter, Function.iterate_succ_apply']
    exact hstep _ hpos

/-- Successive Bellman iterates of `divergeModel` at price `1` always
differ by at least `1`, so the tolerance test never succeeds. -/
theorem divergeModel_no_stop :
    ∀ j, ¬ supDist (divergeModel.vfIter 1 j) (divergeModel.vfIter 1 (j + 1)) < tol := by
  intro j
  obtain ⟨hpos, hrec⟩ := divergeModel_iter j
  rw [supDist_fin_one, hrec]
  rw [show divergeModel.vfIter 1 j 0 - (1 + 2 * divergeModel.vfIter 1 j 0) =
    -(1 + divergeModel.vfIter 1 j 0) by ring, abs_neg,
    abs_of_nonneg (by linarith)]
  norm_num [tol]
  linarith

/-- In `unitModel` the expected continuation value of the all `-1`
value function is `-1` in the unique state. -/
theorem unitModel_avgVF_neg :
    ∀ z, unitModel.avgVF (fun _ => -1) z < 0 := by
  intro z
  rw [avgVF]
  simp [unitModel, Fin.sum_univ_one]

/-- Multiplying by a row of the identity matrix picks out one entry. -/
theorem identity_row_sum {n : ℕ} (f : Fin n → ℝ) (i : Fin n) :
    (∑ j, (if i = j then (1 : ℝ) else 0) * f j) = f i := by
  simp [ite_mul]

/-- The identity transition matrix of `twoStateModel` is row-stochastic. -/
theorem twoStateModel_rowStochastic : RowStochastic twoStateModel.pi := by
  constructor
  · intro i j
    by_cases h : i = j <;> simp [twoStateModel, h]
  · intro i
    fin_cases i <;> simp [twoStateModel, Fin.sum_univ_two]

/-- The identity transition matrix of `twoStateModel` is stochastically
monotone. -/
theorem twoStateModel_stochMonotone : StochMonotone twoStateModel.pi := by
  intro f hf
  have : (fun i => ∑ j, twoStateModel.pi i j * f j) = f := by
    funext i
    exact identity_row_sum f i
  rwa [this]

/-- Under the identity transition matrix the expected continuation value
of `twoStateVF` is `twoStateVF` itself. -/
theorem twoStateModel_avgVF :
    twoStateModel.avgVF twoStateVF = twoStateVF := by
  funext z
  exact identity_row_sum twoStateVF z

/-- `twoStateVF` is monotone. -/
theorem twoStateVF_monotone : Monotone twoStateVF := by
  intro i j hij
  have : (i.val : ℝ) ≤ (j.val : ℝ) := by exact_mod_cast hij
  simp only [twoStateVF]
  linarith

/-- The grid of `twoStateModel` is strictly increasing. -/
theorem twoStateModel_grid_strictMono : StrictMono twoStateModel.grid_z := by
  intro i j hij
  have : (i.val : ℝ) < (j.val : ℝ) := by exact_mod_cast hij
  simp only [twoStateModel]
  linarith

/-- The grid of `twoStateModel` is positive. -/
theorem twoStateModel_grid_pos : ∀ z, 0 < twoStateModel.grid_z z := by
  intro z
  have : (0 : ℝ) ≤ (z.val : ℝ) := by positivity
  simp only [twoStateModel]
  linarith

/-! ### Helper lemmas: monotonicity of the incumbent problem -/

/-- The first-order condition behind the closed-form labor demand: the
wage bill `wage * pol_n z` equals `theta * price * firm_output z`. -/
theorem wage_mul_pol_n {Nz : ℕ} (H : Hopenhayn Nz) (price : ℝ)
    (hth0 : 0 < H.theta) (hth1 : H.theta < 1) (hw : 0 < H.wage)
    (hp : 0 < price) (z : Fin Nz) (hz : 0 < H.grid_z z) :
    H.wage * (H.incumbent_firm price).2.2 z =
      H.theta * price * (H.incumbent_firm price).2.1 z := by
  have h1t : (0 : ℝ) < 1 - H.theta := by linarith
  set B : ℝ := H.theta * price * H.grid_z z / H.wage with hBdef
  have hB : 0 < B := div_pos (mul_pos (mul_pos hth0 hp) hz) hw
  have hn : (H.incumbent_firm price).2.2 z = B ^ ((1 : ℝ) / (1 - H.theta)) := rfl
  have hout : (H.incumbent_firm price).2.1 z =
      H.grid_z z * (B ^ ((1 : ℝ) / (1 - H.theta))) ^ H.theta := rfl
  rw [hn, hout]
  have hpow : (B ^ ((1 : ℝ) / (1 - H.theta))) ^ H.theta =
      B ^ ((1 : ℝ) / (1 - H.theta) * H.theta) := (Real.rpow_mul hB.le _ _).symm
  have hexp : (1 : ℝ) / (1 - H.theta) = 1 + 1 / (1 - H.theta) * H.theta := by
    field_simp
  have hsplit : B ^ ((1 : ℝ) / (1 - H.theta)) =
      B * B ^ ((1 : ℝ) / (1 - H.theta) * H.theta) := by
    conv_lhs => rw [hexp]
    rw [Real.rpow_add hB, Real.rpow_one]
  have hwB : H.wage * B = H.theta * price * H.grid_z z := by
    rw [hBdef]
    field_simp
  rw [hpow, hsplit]
  calc H.wage * (B * B ^ ((1 : ℝ) / (1 - H.theta) * H.theta))
      = H.wage * B * B ^ ((1 : ℝ) / (1 - H.theta) * H.theta) := by ring
    _ = H.theta * price * H.grid_z z * B ^ ((1 : ℝ) / (1 - H.theta) * H.theta) := by
        rw [hwB]
    _ = H.theta * price * (H.grid_z z * B ^ ((1 : ℝ) / (1 - H.theta) * H.theta)) := by
        ring

/-- Substituting the optimal wage bill into the profit gives
`profit z = (1 - theta) * price * firm_output z - cf`. -/
theorem firm_profit_eq {Nz : ℕ} (H : Hopenhayn Nz) (price : ℝ)
    (hth0 : 0 < H.theta) (hth1 : H.theta < 1) (hw : 0 < H.wage)
    (hp : 0 < price) (z : Fin Nz) (hz : 0 < H.grid_z z) :
    (H.incumbent_firm price).1 z =
      (1 - H.theta) * price * (H.incumbent_firm price).2.1 z - H.cf := by
  have hkey := wage_mul_pol_n H price hth0 hth1 hw hp z hz
  have hdef : (H.incumbent_firm price).1 z =
      price * (H.incumbent_firm price).2.1 z -
        H.wage * (H.incumbent_firm price).2.2 z - H.cf := rfl
  rw [hdef, hkey]
  ring

/-- On a positive monotone grid the firm's output is monotone in the
productivity state. -/
theorem firm_output_monotone {Nz : ℕ} (H : Hopenhayn Nz) (price : ℝ)
    (hth0 : 0 < H.theta) (hth1 : H.theta < 1) (hw : 0 < H.wage)
    (hp : 0 < price) (hgpos : ∀ z, 0 < H.grid_z z)
    (hgmono : Monotone H.grid_z) :
    Monotone fun z => (H.incumbent_firm price).2.1 z := by
  have h1t : (0 : ℝ) < 1 - H.theta := by linarith
  intro i j hij
  have hBpos : ∀ z : Fin Nz, 0 < H.theta * price * H.grid_z z / H.wage :=
    fun z => div_pos (mul_pos (mul_pos hth0 hp) (hgpos z)) hw
  have hBle : H.theta * price * H.grid_z i / H.wage ≤
      H.theta * price * H.grid_z j / H.wage :=
    div_le_div_of_nonneg_right
      (mul_le_mul_of_nonneg_left (hgmono hij) (mul_pos hth0 hp).le) hw.le
  have hn : (H.theta * price * H.grid_z i / H.wage) ^ ((1 : ℝ) / (1 - H.theta)) ≤
      (H.theta * price * H.grid_z j / H.wage) ^ ((1 : ℝ) / (1 - H.theta)) :=
    Real.rpow_le_rpow (hBpos i).le hBle (by positivity)
  have hpow : ((H.theta * price * H.grid_z i / H.wage) ^
        ((1 : ℝ) / (1 - H.theta))) ^ H.theta ≤
      ((H.theta * price * H.grid_z j / H.wage) ^
        ((1 : ℝ) / (1 - H.theta))) ^ H.theta :=
    Real.rpow_le_rpow (Real.rpow_nonneg (hBpos i).le _) hn hth0.le
  show H.grid_z i * _ ≤ H.grid_z j * _
  exact mul_le_mul (hgmono hij) hpow
    (Real.rpow_nonneg (Real.rpow_nonneg (hBpos i).le _) _) (hgpos j).le

/-- On a positive monotone grid the static profit is monotone in the
productivity state. -/
theorem firm_profit_monotone {Nz : ℕ} (H : Hopenhayn Nz) (price : ℝ)
    (hth0 : 0 < H.theta) (hth1 : H.theta < 1) (hw : 0 < H.wage)
    (hp : 0 < price) (hgpos : ∀ z, 0 < H.grid_z z)
    (hgmono : Monotone H.grid_z) :
    Monotone fun z => (H.incumbent_firm price).1 z := by
  intro i j hij
  have hout := firm_output_monotone H price hth0 hth1 hw hp hgpos hgmono hij
  simp only
  rw [firm_profit_eq H price hth0 hth1 hw hp i (hgpos i),
    firm_profit_eq H price hth0 hth1 hw hp j (hgpos j)]
  have : (1 - H.theta) * price * (H.incumbent_firm price).2.1 i ≤
      (1 - H.theta) * price * (H.incumbent_firm price).2.1 j :=
    mul_le_mul_of_nonneg_left hout (by nlinarith)
  linarith

/-- The Bellman operator preserves monotonicity when the profit vector
is monotone, the transition matrix is stochastically monotone and the
discount factor is nonnegative. -/
theorem bellman_monotone {Nz : ℕ} (H : Hopenhayn Nz) (profit : Fin Nz → ℝ)
    (hbeta : 0 ≤ H.beta) (hpi : StochMonotone H.pi)
    (hprofit : Monotone profit) {V : Fin Nz → ℝ} (hV : Monotone V) :
    Monotone (H.bellman profit V) := by
  intro i j hij
  have havg := hpi V hV hij
  exact add_le_add (hprofit hij)
    (mul_le_mul_of_nonneg_left (max_le_max le_rfl havg) hbeta)

/-- The value-function loop preserves monotonicity of its iterates. -/
theorem vfLoop_monotone {Nz : ℕ} (H : Hopenhayn Nz) (profit : Fin Nz → ℝ)
    (hbeta : 0 ≤ H.beta) (hpi : StochMonotone H.pi)
    (hprofit : Monotone profit) :
    ∀ (fuel : ℕ) (v : Fin Nz → ℝ), Monotone v →
      Monotone (H.vfLoop profit fuel v) := by
  intro fuel
  induction fuel with
  | zero => intro v hv; exact hv
  | succ n ih =>
    intro v hv
    have hb : Monotone (H.bellman profit v) :=
      bellman_monotone H profit hbeta hpi hprofit hv
    by_cases h1 : supDist v (H.bellman profit v) < tol
    · simpa [vfLoop, if_pos h1] using hb
    · simpa [vfLoop, if_neg h1] using ih (H.bellman profit v) hb

/-! ### Claim theorems -/

/-- Claim C1, amended (corrected): `solve_firm` bisects on `[0.01, 100]`
with midpoint candidates and the stated endpoint updates (the iterates
of `entryStep`), stopping at the first midpoint whose entrant value is
within `tol` of `ce` or after `maxit` iterations; the free-entry
condition is guaranteed at the returned price only when the loop stopped
through the tolerance test, not when the iterations were exhausted. -/
theorem C1_bisection_structure {Nz : ℕ} (H : Hopenhayn Nz) :
    ∃ m, m < maxit ∧
      H.solve_firm = H.specMid (0.01, 100) m ∧
      (∀ j < m, ¬ |H.entryValueAt (H.specMid (0.01, 100) j) - H.ce| < tol) ∧
      (|H.entryValueAt (H.specMid (0.01, 100) m) - H.ce| < tol ∨ m = maxit - 1) := by
  obtain ⟨m, hm, h1, h2, h3⟩ := firmLoop_eq_specMid H (maxit - 1) (0.01, 100)
  have hmax : maxit = 2000 := rfl
  exact ⟨m, by omega, h1, h2, h3⟩

/-- Claim C1, counterexample: in `noRootModel` the free-entry condition
is not within `tol` at the price returned by `solve_firm`, so the
unconditional postcondition of the claim fails. -/
theorem C1_counterexample :
    ¬ |noRootModel.entryValueAt noRootModel.solve_firm - noRootModel.ce| < tol := by
  have h := firmLoop_no_root noRootModel noRootModel_no_root (maxit - 1) 0.01 100
    le_rfl (by norm_num) le_rfl
  simpa [solve_firm] using h

/-- Claim C2 (confirmed): for every price, `solve_vf` returns the
`(m+1)`-st Bellman iterate from `VF = 0` for the first `m` whose
successive-iterate max-absolute difference is below `tol`, and otherwise
the `maxit`-th iterate after exactly `maxit` iterations. -/
theorem C2_value_iteration {Nz : ℕ} (H : Hopenhayn Nz) (price : ℝ) :
    ∃ m, m < maxit ∧
      (H.solve_vf price).1 = H.vfIter price (m + 1) ∧
      (∀ j < m, ¬ supDist (H.vfIter price j) (H.vfIter price (j + 1)) < tol) ∧
      (supDist (H.vfIter price m) (H.vfIter price (m + 1)) < tol ∨ m + 1 = maxit) := by
  obtain ⟨m, hm, h1, h2, h3⟩ := vfLoop_spec H (H.incumbent_firm price).1 maxit
    (fun _ => 0) (by norm_num [maxit])
  exact ⟨m, hm, h1, h2, h3⟩

/-- Claim C4, amended (corrected): when the expected continuation value
is strictly negative at every state, `searchsorted` returns `Nz`, the
lookup `grid_z[idx]` is out of bounds, and `exit_decision` fails with an
`IndexError` (modelled by `none`) instead of reporting the degenerate
all-exit equilibrium. -/
theorem C4_all_exit_fails {Nz : ℕ} (H : Hopenhayn Nz) (VF : Fin Nz → ℝ)
    (h : ∀ z, H.avgVF VF z < 0) : H.exit_decision VF = none := by
  have hss : searchsorted (H.avgVF VF) 0 = Nz :=
    ssGo_all_lt _ _ h Nz 0 Nz (Nat.zero_le _) le_rfl (by omega)
  simp [exit_decision, hss]

/-- Claim C4, witness: the amended theorem applied to `unitModel` with
the all `-1` value function. -/
theorem C4_witness :
    (∀ z, unitModel.avgVF (fun _ => -1) z < 0) ∧
    unitModel.exit_decision (fun _ => -1) = none :=
  ⟨unitModel_avgVF_neg, C4_all_exit_fails unitModel _ unitModel_avgVF_neg⟩

/-- Claim C4, counterexample: in `unitModel` with the all `-1` value
function the expected continuation value is everywhere negative, yet
`searchsorted` returns `1 = Nz` — out of bounds for the one-element
grid — and `exit_decision` fails rather than reporting that all firms
exit. -/
theorem C4_counterexample :
    (∀ z, unitModel.avgVF (fun _ => -1) z < 0) ∧
    searchsorted (unitModel.avgVF fun _ => -1) 0 = 1 ∧
    unitModel.exit_decision (fun _ => -1) = none := by
  have hss : searchsorted (unitModel.avgVF fun _ => -1) 0 = 1 :=
    ssGo_all_lt _ _ unitModel_avgVF_neg 1 0 1 (Nat.zero_le _) le_rfl (by omega)
  exact ⟨unitModel_avgVF_neg, hss, by simp [exit_decision, hss]⟩

/-- Claim C6 (confirmed): whenever the aggregate output
`distribution_0 · firm_output` is nonzero (the non-singular case),
computing `m_star = D / (distribution_0 · firm_output)` and rescaling
the distribution reproduces the goods-market-clearing identity
`distrib_stationary · firm_output = D` exactly over the reals. -/
theorem C6_market_clearing {Nz : ℕ} (H : Hopenhayn Nz)
    (distrib0 firm_output : Fin Nz → ℝ)
    (h : Matrix.dotProduct distrib0 firm_output ≠ 0) :
    Matrix.dotProduct (H.solve_m_star distrib0 firm_output • distrib0)
      firm_output = H.D := by
  rw [Matrix.smul_dotProduct, solve_m_star, smul_eq_mul, div_mul_cancel₀ _ h]

/-- Claim C6, witness: the theorem applied to `unitModel` with the
constant distributions `2` and `3`. -/
theorem C6_witness :
    Matrix.dotProduct (fun _ : Fin 1 => (2 : ℝ)) (fun _ => 3) ≠ 0 ∧
    Matrix.dotProduct
      (unitModel.solve_m_star (fun _ => 2) (fun _ => 3) • fun _ : Fin 1 => (2 : ℝ))
      (fun _ => 3) = unitModel.D := by
  have h : Matrix.dotProduct (fun _ : Fin 1 => (2 : ℝ)) (fun _ => 3) ≠ 0 := by
    simp [Matrix.dotProduct]
  exact ⟨h, C6_market_clearing unitModel _ _ h⟩

/-- Claim C8, amended (corrected): `solve_firm` performs no bracket
validity check and has no error channel.  Even when the entrant value
exceeds `ce` by at least `tol` at every price of the search interval
(so the bracket cannot contain a root), it silently runs the bisection
and returns an ordinary price strictly inside `(0.01, 100)` at which the
free-entry condition fails. -/
theorem C8_no_bracket_check {Nz : ℕ} (H : Hopenhayn Nz)
    (hyp : ∀ p, 0.01 ≤ p → p ≤ 100 → H.ce + tol ≤ H.entryValueAt p) :
    0.01 < H.solve_firm ∧ H.solve_firm < 100 ∧
      ¬ |H.entryValueAt H.solve_firm - H.ce| < tol := by
  have hmem := firmLoop_mem H (maxit - 1) 0.01 100 (by norm_num)
  have hno := firmLoop_no_root H hyp (maxit - 1) 0.01 100 le_rfl (by norm_num) le_rfl
  exact ⟨hmem.1, hmem.2, hno⟩

/-- Claim C8, witness: the amended theorem applied to `noRootModel`,
whose entrant value exceeds `ce = -1` everywhere on the interval. -/
theorem C8_witness :
    (∀ p, 0.01 ≤ p → p ≤ 100 →
      noRootModel.ce + tol ≤ noRootModel.entryValueAt p) ∧
    (0.01 < noRootModel.solve_firm ∧ noRootModel.solve_firm < 100 ∧
      ¬ |noRootModel.entryValueAt noRootModel.solve_firm - noRootModel.ce| < tol) :=
  ⟨noRootModel_no_root, C8_no_bracket_check noRootModel noRootModel_no_root⟩

/-- Claim C8, counterexample: in `noRootModel` the entrant value at
`pmin = 0.01` strictly exceeds `ce`, so by the claim `solve_firm` should
signal `NoEquilibriumError`; instead it returns an ordinary price
strictly inside the search interval. -/
theorem C8_counterexample :
    noRootModel.ce < noRootModel.entryValueAt 0.01 ∧
    0.01 < noRootModel.solve_firm ∧ noRootModel.solve_firm < 100 := by
  refine ⟨?_, firmLoop_mem noRootModel (maxit - 1) 0.01 100 (by norm_num)⟩
  have h := noRootModel_entry_nonneg 0.01 (by norm_num)
  have hce : noRootModel.ce = -1 := rfl
  linarith

/-- Claim C9, amended (corrected): when the successive-iterate tolerance
is never met within `maxit` iterations, `solve_vf` returns exactly the
bare `maxit`-th Bellman iterate; no convergence diagnostic of any kind
accompanies it (the return value consists solely of the iterate and the
static-problem arrays). -/
theorem C9_silent_truncation {Nz : ℕ} (H : Hopenhayn Nz) (price : ℝ)
    (hyp : ∀ j < maxit, ¬ supDist (H.vfIter price j) (H.vfIter price (j + 1)) < tol) :
    (H.solve_vf price).1 = H.vfIter price maxit := by
  show H.vfLoop (H.incumbent_firm price).1 maxit (fun _ => 0) = _
  exact vfLoop_no_stop H _ maxit _ hyp

/-- Claim C9, witness: the amended theorem applied to `divergeModel` at
price `1`, where the iteration never converges. -/
theorem C9_witness :
    (∀ j < maxit, ¬ supDist (divergeModel.vfIter 1 j)
      (divergeModel.vfIter 1 (j + 1)) < tol) ∧
    (divergeModel.solve_vf 1).1 = divergeModel.vfIter 1 maxit :=
  ⟨fun j _ => divergeModel_no_stop j,
    C9_silent_truncation divergeModel 1 fun j _ => divergeModel_no_stop j⟩

/-- Claim C9, counterexample: in `divergeModel` at price `1` the last
pair of iterates is still at least `1` apart — `maxit` was reached
without meeting the tolerance — yet the whole return value of `solve_vf`
is just the bare `2000`-th iterate together with the static-problem
arrays: no flag, warning or any other diagnostic accompanies it. -/
theorem C9_counterexample :
    ¬ supDist (divergeModel.vfIter 1 1999) (divergeModel.vfIter 1 2000) < tol ∧
    divergeModel.solve_vf 1 =
      (divergeModel.vfIter 1 2000, divergeModel.incumbent_firm 1) := by
  constructor
  · have h := divergeModel_no_stop 1999
    norm_num at h
    exact not_lt.mpr h
  · have h1 : divergeModel.vfLoop (divergeModel.incumbent_firm 1).1 maxit
        (fun _ => 0) = divergeModel.vfIter 1 2000 :=
      vfLoop_no_stop divergeModel _ maxit _ fun j _ => divergeModel_no_stop j
    show (divergeModel.vfLoop (divergeModel.incumbent_firm 1).1 maxit fun _ => 0,
      divergeModel.incumbent_firm 1) = _
    rw [h1]

/-- Claim C10 (confirmed): the price returned by `solve_firm` lies
strictly inside the initial search interval: every candidate is the
midpoint of the current sub-interval and each update replaces one
endpoint by that midpoint, so `0.01 < price < 100` always holds,
whether or not the tolerance was met. -/
theorem C10_price_strictly_inside {Nz : ℕ} (H : Hopenhayn Nz) :
    0.01 < H.solve_firm ∧ H.solve_firm < 100 :=
  firmLoop_mem H (maxit - 1) 0.01 100 (by norm_num)

/-- Claim C3 (confirmed): when `I - pi_tilde` is nonsingular, the vector
`x = m * (I - pi_tilde)^(-1) . nu` computed by
`solve_invariant_distribution` is the stationary unnormalized mass — it
solves `x = pi_tilde . x + m * nu`; the scaling of `pi_tilde` zeroes the
outflow of every exiting state, so exiting firms carry no mass forward;
and the entrant mass recovered by `solve_m_star` satisfies the market
clearing identity `m_star * (distribution_0 . firm_output) = D`. -/
theorem C3_invariant_distribution {Nz : ℕ} (H : Hopenhayn Nz) (m : ℝ)
    (pol_exit : Fin Nz → ℕ)
    (hdet : IsUnit (1 - H.pi_tilde pol_exit).det) :
    (H.solve_invariant_distribution m pol_exit = fun i =>
      (H.pi_tilde pol_exit).mulVec (H.solve_invariant_distribution m pol_exit) i +
        m * H.nu i) ∧
    (∀ i, pol_exit i = 1 → ∀ j, H.pi_tilde pol_exit j i = 0) ∧
    (∀ d firm_output : Fin Nz → ℝ, Matrix.dotProduct d firm_output ≠ 0 →
      H.solve_m_star d firm_output * Matrix.dotProduct d firm_output = H.D) := by
  refine ⟨?_, ?_, ?_⟩
  · have hA : (1 - H.pi_tilde pol_exit).mulVec
        (H.solve_invariant_distribution m pol_exit) = m • H.nu := by
      rw [solve_invariant_distribution, Matrix.mulVec_smul, Matrix.mulVec_mulVec,
        Matrix.mul_nonsing_inv _ hdet, Matrix.one_mulVec]
    have hsub : (1 - H.pi_tilde pol_exit).mulVec
        (H.solve_invariant_distribution m pol_exit) =
        H.solve_invariant_distribution m pol_exit -
          (H.pi_tilde pol_exit).mulVec (H.solve_invariant_distribution m pol_exit) := by
      rw [Matrix.sub_mulVec, Matrix.one_mulVec]
    funext i
    have h := congrFun (hsub.symm.trans hA) i
    simp only [Pi.sub_apply, Pi.smul_apply, smul_eq_mul] at h
    linarith
  · intro i hi j
    simp [pi_tilde, hi]
  · intro d firm_output h
    rw [solve_m_star, div_mul_cancel₀ _ h]

/-- Claim C3, witness: the theorem applied to `unitModel` with the
all-exit policy, for which `pi_tilde = 0` and `I - pi_tilde = I` is
invertible. -/
theorem C3_witness :
    IsUnit (1 - unitModel.pi_tilde fun _ => 1).det ∧
    (unitModel.solve_invariant_distribution 5 (fun _ => 1) = fun i =>
      (unitModel.pi_tilde fun _ => 1).mulVec
        (unitModel.solve_invariant_distribution 5 fun _ => 1) i +
        5 * unitModel.nu i) := by
  have hT : unitModel.pi_tilde (fun _ => 1) = 0 := by
    ext i j
    simp [pi_tilde, unitModel]
  have hdet : IsUnit (1 - unitModel.pi_tilde fun _ => 1).det := by
    rw [hT, sub_zero, Matrix.det_one]
    exact isUnit_one
  exact ⟨hdet, (C3_invariant_distribution unitModel 5 (fun _ => 1) hdet).1⟩

/-- Claim C5 (confirmed): given a row-stochastic transition matrix, a
monotone expected continuation value and a strictly increasing grid, and
provided `avg_VF` is nonnegative somewhere (the cases the claim covers:
a crossing exists or `avg_VF` is nonnegative everywhere),
`exit_decision` returns the cutoff at the first index where `avg_VF`
becomes nonnegative; `pol_exit` is `1` exactly on the states where the
expected continuation value is negative, hence on a lowest-index
contiguous block; and when `avg_VF` is nonnegative everywhere the cutoff
is the lowest grid point and no firm exits. -/
theorem C5_exit_rule {Nz : ℕ} (H : Hopenhayn Nz) (VF : Fin Nz → ℝ)
    (hrow : RowStochastic H.pi) (hmono : Monotone (H.avgVF VF))
    (hgrid : StrictMono H.grid_z) (hex : ∃ z, 0 ≤ H.avgVF VF z) :
    ∃ cutoff pol, H.exit_decision VF = some (cutoff, pol) ∧
      (∀ z, pol z = 1 ↔ H.avgVF VF z < 0) ∧
      (∀ z w : Fin Nz, z ≤ w → pol w = 1 → pol z = 1) ∧
      (∃ k, ∃ hk : k < Nz, cutoff = H.grid_z ⟨k, hk⟩ ∧
        (∀ i : Fin Nz, i.val < k → H.avgVF VF i < 0) ∧
        0 ≤ H.avgVF VF ⟨k, hk⟩) ∧
      ((∀ z, 0 ≤ H.avgVF VF z) →
        (∃ h0 : 0 < Nz, cutoff = H.grid_z ⟨0, h0⟩) ∧ ∀ z, pol z = 0) := by
  obtain ⟨hlow, hhigh, hle⟩ := searchsorted_spec (H.avgVF VF) 0 hmono
  have hk : searchsorted (H.avgVF VF) 0 < Nz := by
    by_contra hk'
    push_neg at hk'
    obtain ⟨z, hz⟩ := hex
    exact absurd hz (not_le.mpr (hlow z (lt_of_lt_of_le z.isLt hk')))
  set k := searchsorted (H.avgVF VF) 0 with hkdef
  refine ⟨H.grid_z ⟨k, hk⟩,
    (fun z => if H.grid_z z < H.grid_z ⟨k, hk⟩ then 1 else 0), ?_, ?_, ?_, ?_, ?_⟩
  · simp only [exit_decision]
    rw [dif_pos hk]
  · intro z
    constructor
    · intro hz
      by_cases hlt : H.grid_z z < H.grid_z ⟨k, hk⟩
      · exact hlow z (by simpa [Fin.lt_def] using hgrid.lt_iff_lt.mp hlt)
      · simp [if_neg hlt] at hz
    · intro hz
      have hzk : z < (⟨k, hk⟩ : Fin Nz) := by
        by_contra hzk
        push_neg at hzk
        exact absurd (hhigh z (by simpa [Fin.le_def] using hzk)) (not_le.mpr hz)
      simp only [if_pos (hgrid hzk)]
  · intro z w hzw hw
    by_cases hlt : H.grid_z w < H.grid_z ⟨k, hk⟩
    · simp only [if_pos (lt_of_le_of_lt (hgrid.monotone hzw) hlt)]
    · simp [if_neg hlt] at hw
  · exact ⟨k, hk, rfl, fun i hi => hlow i hi, hhigh ⟨k, hk⟩ le_rfl⟩
  · intro hall
    have hk0 : k = 0 := by
      by_contra h0
      have hpos : 0 < k := Nat.pos_of_ne_zero h0
      have h00 : (0 : ℕ) < Nz := lt_of_lt_of_le hpos hle
      exact absurd (hall ⟨0, h00⟩) (not_le.mpr (hlow ⟨0, h00⟩ hpos))
    constructor
    · refine ⟨by omega, ?_⟩
      congr 1
      exact Fin.ext hk0
    · intro z
      by_cases hlt : H.grid_z z < H.grid_z ⟨k, hk⟩
      · have hzk : z < (⟨k, hk⟩ : Fin Nz) := hgrid.lt_iff_lt.mp hlt
        have : H.avgVF VF z < 0 := hlow z (by simpa [Fin.lt_def] using hzk)
        exact absurd (hall z) (not_le.mpr this)
      · simp only [if_neg hlt]

/-- Claim C5, witness: the theorem applied to `twoStateModel` with the
monotone sign-changing value function `twoStateVF`. -/
theorem C5_witness :
    RowStochastic twoStateModel.pi ∧
    Monotone (twoStateModel.avgVF twoStateVF) ∧
    StrictMono twoStateModel.grid_z ∧
    (∃ z, 0 ≤ twoStateModel.avgVF twoStateVF z) ∧
    ∃ cutoff pol, twoStateModel.exit_decision twoStateVF = some (cutoff, pol) ∧
      (∀ z, pol z = 1 ↔ twoStateModel.avgVF twoStateVF z < 0) ∧
      (∀ z w : Fin 2, z ≤ w → pol w = 1 → pol z = 1) ∧
      (∃ k, ∃ hk : k < 2, cutoff = twoStateModel.grid_z ⟨k, hk⟩ ∧
        (∀ i : Fin 2, i.val < k → twoStateModel.avgVF twoStateVF i < 0) ∧
        0 ≤ twoStateModel.avgVF twoStateVF ⟨k, hk⟩) ∧
      ((∀ z, 0 ≤ twoStateModel.avgVF twoStateVF z) →
        (∃ h0 : 0 < 2, cutoff = twoStateModel.grid_z ⟨0, h0⟩) ∧ ∀ z, pol z = 0) := by
  have hmono : Monotone (twoStateModel.avgVF twoStateVF) := by
    rw [twoStateModel_avgVF]
    exact twoStateVF_monotone
  have hex : ∃ z, 0 ≤ twoStateModel.avgVF twoStateVF z := by
    refine ⟨1, ?_⟩
    rw [twoStateModel_avgVF]
    norm_num [twoStateVF]
  exact ⟨twoStateModel_rowStochastic, hmono, twoStateModel_grid_strictMono, hex,
    C5_exit_rule twoStateModel twoStateVF twoStateModel_rowStochastic hmono
      twoStateModel_grid_strictMono hex⟩

/-- Claim C7 (confirmed, over the specification's parameter domain
`0 < theta < 1`, `0 ≤ beta`, `0 < wage`, `0 < price`): for every price
and every strictly increasing positive productivity grid with a
stochastically monotone transition matrix, the value function returned
by `solve_vf` is monotonically non-decreasing in the productivity state;
every Bellman iterate from `VF = 0` preserves monotonicity. -/
theorem C7_vf_monotone {Nz : ℕ} (H : Hopenhayn Nz) (price : ℝ)
    (hth0 : 0 < H.theta) (hth1 : H.theta < 1) (hbeta : 0 ≤ H.beta)
    (hw : 0 < H.wage) (hp : 0 < price) (hgpos : ∀ z, 0 < H.grid_z z)
    (hgrid : StrictMono H.grid_z) (hpi : StochMonotone H.pi) :
    Monotone (H.solve_vf price).1 := by
  show Monotone (H.vfLoop (H.incumbent_firm price).1 maxit fun _ => 0)
  exact vfLoop_monotone H _ hbeta hpi
    (firm_profit_monotone H price hth0 hth1 hw hp hgpos hgrid.monotone)
    maxit _ monotone_const

/-- Claim C7, witness: the theorem applied to `twoStateModel` at price
`1`. -/
theorem C7_witness :
    (0 : ℝ) < twoStateModel.theta ∧ twoStateModel.theta < 1 ∧
    (0 : ℝ) ≤ twoStateModel.beta ∧ (0 : ℝ) < twoStateModel.wage ∧
    (∀ z, 0 < twoStateModel.grid_z z) ∧ StrictMono twoStateModel.grid_z ∧
    StochMonotone twoStateModel.pi ∧ Monotone (twoStateModel.solve_vf 1).1 :=
  ⟨by norm_num [twoStateModel], by norm_num [twoStateModel],
    by norm_num [twoStateModel], by norm_num [twoStateModel],
    twoStateModel_grid_pos, twoStateModel_grid_strictMono,
    twoStateModel_stochMonotone,
    C7_vf_monotone twoStateModel 1 (by norm_num [twoStateModel])
      (by norm_num [twoStateModel]) (by norm_num [twoStateModel])
      (by norm_num [twoStateModel]) (by norm_num) twoStateModel_grid_pos
      twoStateModel_grid_strictMono twoStateModel_stochMonotone⟩

end HopenhaynModel

end
